import Mathlib

set_option maxRecDepth 20000

/-!
Verification of the text segmentation engine in `src/text_utils.rs`.

The engine is embedded shallowly over `List Char` (Rust iterates Unicode
scalar values, which `Char` models exactly).  The two external collaborators
are treated as the spec directs:

* the CJK segmentation oracle (`jieba_rs::Jieba::cut`) is a parameter
  `cut : List Char → List (List Char)` of every definition that needs it;
* Unicode word-boundary segmentation (`unicode_segmentation`'s
  `split_word_bounds`) is modelled from the spec (see `splitWordBounds`).

Everything else is a direct transcription of `split_text` and
`process_segment`.
-/

/-- U+0027, the single-quote / apostrophe character matched by the scanner. -/
def squote : Char := Char.ofNat 39

/-- U+0022, the double-quote character matched by the scanner. -/
def dquote : Char := Char.ofNat 34

/-- U+002D, the hyphen connector recognised by the token merger. -/
def hyph : Char := Char.ofNat 45

/-- Rust `char::is_whitespace`: the Unicode `White_Space` property
(U+0009..U+000D, U+0020, U+0085, U+00A0, U+1680, U+2000..U+200A,
U+2028, U+2029, U+202F, U+205F, U+3000). -/
def rustIsWhitespace (c : Char) : Bool :=
  (decide (9 ≤ c.toNat) && decide (c.toNat ≤ 13)) || decide (c.toNat = 32) ||
  decide (c.toNat = 133) || decide (c.toNat = 160) || decide (c.toNat = 0x1680) ||
  (decide (0x2000 ≤ c.toNat) && decide (c.toNat ≤ 0x200a)) ||
  decide (c.toNat = 0x2028) || decide (c.toNat = 0x2029) ||
  decide (c.toNat = 0x202f) || decide (c.toNat = 0x205f) || decide (c.toNat = 0x3000)

/-- Modelled from the spec: Rust `char::is_alphabetic` tests the Unicode
`Alphabetic` property, whose full table is external to this repository.  We
model the fragment exercised by the program: ASCII letters together with the
kana and CJK-ideograph ranges that the program itself distinguishes. -/
def rustIsAlphabetic (c : Char) : Bool :=
  (decide (65 ≤ c.toNat) && decide (c.toNat ≤ 90)) ||
  (decide (97 ≤ c.toNat) && decide (c.toNat ≤ 122)) ||
  (decide (0x3040 ≤ c.toNat) && decide (c.toNat ≤ 0x30ff)) ||
  (decide (0x4e00 ≤ c.toNat) && decide (c.toNat ≤ 0x9fff))

/-- Rust `char::is_alphanumeric`: `Alphabetic` or a decimal digit
(the general `Number` category beyond ASCII digits is not exercised here). -/
def rustIsAlphanumeric (c : Char) : Bool :=
  rustIsAlphabetic c || (decide (48 ≤ c.toNat) && decide (c.toNat ≤ 57))

/-- The `has_cjk` character test of `process_segment`:
U+4E00..U+9FFF (Chinese) or U+3040..U+30FF (Japanese kana). -/
def isCJKchar (c : Char) : Bool :=
  (decide (0x4e00 ≤ c.toNat) && decide (c.toNat ≤ 0x9fff)) ||
  (decide (0x3040 ≤ c.toNat) && decide (c.toNat ≤ 0x30ff))

/-- `chars.peek().is_some_and(|next| next.is_alphabetic())`. -/
def nextAlpha : List Char → Bool
  | [] => false
  | d :: _ => rustIsAlphabetic d

/-- Modelled from the spec: the word-characters of the Unicode word-boundary
rules (letters and digits group together). -/
def wordChar (c : Char) : Bool := rustIsAlphanumeric c

/-- Modelled from the spec: continuation of a word run for `splitWordBounds`.
Consumes further word characters, absorbing an apostrophe that is immediately
followed by another word character (UAX#29 MidLetter, which keeps
contractions in one unit); returns the run continuation and the rest. -/
def wordRun : List Char → List Char × List Char
  | [] => ([], [])
  | c :: cs =>
    if wordChar c then
      ((wordRun cs).1.cons c, (wordRun cs).2)
    else if c = squote then
      match cs with
      | [] => ([], [c])
      | d :: _ =>
        if wordChar d then ((wordRun cs).1.cons c, (wordRun cs).2)
        else ([], c :: cs)
    else ([], c :: cs)

/-- Fueled form of the modelled `split_word_bounds`; the fuel only guarantees
structural recursion and is always instantiated with the input length. -/
def swbF : Nat → List Char → List (List Char)
  | 0, _ => []
  | _ + 1, [] => []
  | n + 1, c :: cs =>
    if wordChar c then
      (c :: (wordRun cs).1) :: swbF n (wordRun cs).2
    else if rustIsWhitespace c then
      (c :: cs.takeWhile rustIsWhitespace) :: swbF n (cs.dropWhile rustIsWhitespace)
    else
      [c] :: swbF n cs

/-- Modelled from the spec: the external `unicode_segmentation` crate's
`split_word_bounds` — letters/digits group together into maximal runs (with a
word-internal apostrophe kept inside the run when followed by a letter),
runs of whitespace are separate boundary units, and every other character is
its own boundary unit. -/
def splitWordBounds (l : List Char) : List (List Char) := swbF l.length l

/-- The fixed punctuation set of `process_segment`:
`"." | "," | "!" | "?" | "。" | "、" | "！" | "？"`. -/
def punctTok (t : List Char) : Bool :=
  t == ['.'] || t == [','] || t == ['!'] || t == ['?'] ||
  t == ['。'] || t == ['、'] || t == ['！'] || t == ['？']

/-- `tokens.peek()` exists and `!next_token.trim().is_empty()`. -/
def nextNonWs : List (List Char) → Bool
  | [] => false
  | next :: _ => !(next.all rustIsWhitespace)

/-- Append `suffix` to the last element (Rust's `last_mut` /
`pop` + `push` pair); the empty case is unreachable under the guards. -/
def pushLast : List (List Char) → List Char → List (List Char)
  | [], _ => []
  | [t], suffix => [t ++ suffix]
  | t :: ts, suffix => t :: pushLast ts suffix

/-- The token loop of `process_segment`'s Latin branch: skip whitespace
tokens, reattach the fixed punctuation marks to the previous word, fuse
`prev - next` hyphen compounds, and keep only tokens containing an
alphanumeric character. -/
def mergeLoop : List (List Char) → List (List Char) → List (List Char)
  | [], res => res
  | tok :: rest, res =>
    if tok.all rustIsWhitespace then
      mergeLoop rest res
    else if punctTok tok && !res.isEmpty then
      mergeLoop rest (pushLast res tok)
    else if tok == [hyph] && !res.isEmpty && nextNonWs rest then
      match rest with
      | next :: rest2 => mergeLoop rest2 (pushLast res (hyph :: next))
      | [] => res
    else if tok.any rustIsAlphanumeric then
      mergeLoop rest (res ++ [tok])
    else
      mergeLoop rest res

/-- `process_segment`: route the segment to the CJK oracle (then drop
whitespace-only units) when it contains a CJK character, otherwise tokenize
by word bounds and run the merge loop. -/
def processSegment (cut : List Char → List (List Char)) (seg : List Char) :
    List (List Char) :=
  if seg.any isCJKchar then
    (cut seg).filter (fun u => !(u.all rustIsWhitespace))
  else
    mergeLoop (splitWordBounds seg) []

/-- The character loop of `split_text`: state is the remaining input, the
current segment buffer, the `in_quotes` flag and the words accumulated so
far.  Transcribed branch for branch from the Rust `match`. -/
def splitTextAux (cut : List Char → List (List Char)) :
    List Char → List Char → Bool → List (List Char) → List (List Char)
  | [], buf, _, words =>
    if buf.isEmpty then words else words ++ processSegment cut buf
  | c :: cs, buf, inQ, words =>
    if c = squote ∨ c = dquote then
      if c = squote ∧ buf.isEmpty = false ∧ nextAlpha cs then
        splitTextAux cut cs (buf ++ [c]) inQ words
      else
        splitTextAux cut cs [] (!inQ)
          (if buf.isEmpty then words else words ++ processSegment cut buf)
    else if rustIsWhitespace c ∧ inQ = false then
      splitTextAux cut cs [] inQ
        (if buf.isEmpty then words else words ++ processSegment cut buf)
    else
      splitTextAux cut cs (buf ++ [c]) inQ words

/-- `split_text`, parameterized by the external CJK oracle `cut`. -/
def splitText (cut : List Char → List (List Char)) (text : List Char) :
    List (List Char) :=
  splitTextAux cut text [] false []

/-- The quote-scanner in isolation: the same loop as `splitTextAux` but
collecting the flushed segments themselves instead of their tokenizations. -/
def scanLoop : List Char → List Char → Bool → List (List Char)
  | [], buf, _ => if buf.isEmpty then [] else [buf]
  | c :: cs, buf, inQ =>
    if c = squote ∨ c = dquote then
      if c = squote ∧ buf.isEmpty = false ∧ nextAlpha cs then
        scanLoop cs (buf ++ [c]) inQ
      else
        (if buf.isEmpty then [] else [buf]) ++ scanLoop cs [] (!inQ)
    else if rustIsWhitespace c ∧ inQ = false then
      (if buf.isEmpty then [] else [buf]) ++ scanLoop cs [] inQ
    else
      scanLoop cs (buf ++ [c]) inQ

/-- The segments that the scanner pass of `split_text` hands to
`process_segment`, in order. -/
def scanSegments (text : List Char) : List (List Char) := scanLoop text [] false

/-- Rust `Vec::pop` on the merge result, exposing the `Option`. -/
def popLast : List (List Char) → Option (List (List Char) × List Char)
  | [] => none
  | [t] => some ([], t)
  | t :: ts => (popLast ts).map (fun p => (t :: p.1, p.2))

/-- `result.pop().unwrap()` as a fallible operation: pop the last token,
append `suffix` to it, push it back, and continue with `k`; `none` when the
pop fails. -/
def popApply (res : List (List Char)) (suffix : List Char)
    (k : List (List Char) → Option (List (List Char))) :
    Option (List (List Char)) :=
  match popLast res with
  | some p => k (p.1 ++ [p.2 ++ suffix])
  | none => none

/-- The merge loop with its two `unwrap` sites (`result.pop().unwrap()` and
`tokens.next().unwrap()`) rendered as fallible operations, to prove they are
unreachable under their guards. -/
def mergeLoopO : List (List Char) → List (List Char) → Option (List (List Char))
  | [], res => some res
  | tok :: rest, res =>
    if tok.all rustIsWhitespace then
      mergeLoopO rest res
    else if punctTok tok && !res.isEmpty then
      popApply res tok (mergeLoopO rest)
    else if tok == [hyph] && !res.isEmpty && nextNonWs rest then
      match rest with
      | next :: rest2 => popApply res (hyph :: next) (mergeLoopO rest2)
      | [] => none
    else if tok.any rustIsAlphanumeric then
      mergeLoopO rest (res ++ [tok])
    else
      mergeLoopO rest res

/-- `process_segment` over the fallible merge loop. -/
def processSegmentO (cut : List Char → List (List Char)) (seg : List Char) :
    Option (List (List Char)) :=
  if seg.any isCJKchar then
    some ((cut seg).filter (fun u => !(u.all rustIsWhitespace)))
  else
    mergeLoopO (splitWordBounds seg) []

/-- `split_text` over the fallible merge loop. -/
def splitTextAuxO (cut : List Char → List (List Char)) :
    List Char → List Char → Bool → List (List Char) → Option (List (List Char))
  | [], buf, _, words =>
    if buf.isEmpty then some words
    else (processSegmentO cut buf).map (fun r => words ++ r)
  | c :: cs, buf, inQ, words =>
    if c = squote ∨ c = dquote then
      if c = squote ∧ buf.isEmpty = false ∧ nextAlpha cs then
        splitTextAuxO cut cs (buf ++ [c]) inQ words
      else if buf.isEmpty then
        splitTextAuxO cut cs [] (!inQ) words
      else
        match processSegmentO cut buf with
        | some r => splitTextAuxO cut cs [] (!inQ) (words ++ r)
        | none => none
    else if rustIsWhitespace c ∧ inQ = false then
      if buf.isEmpty then
        splitTextAuxO cut cs [] inQ words
      else
        match processSegmentO cut buf with
        | some r => splitTextAuxO cut cs [] inQ (words ++ r)
        | none => none
    else
      splitTextAuxO cut cs (buf ++ [c]) inQ words

/-- Fallible `split_text`. -/
def splitTextO (cut : List Char → List (List Char)) (text : List Char) :
    Option (List (List Char)) :=
  splitTextAuxO cut text [] false []

/-- Modelled from the spec: a trivial instance of the external CJK oracle
(returning no units), used to instantiate closed statements whose inputs
never reach the CJK path. -/
def cutNil : List Char → List (List Char) := fun _ => []

/-- Modelled from the spec: a character-level instance of the external CJK
oracle; its units cover the input exactly, one character each. -/
def cutChars : List Char → List (List Char) := fun s => s.map (fun c => [c])

/-- The scanner as the spec's words of claim C5 describe it: a single quote
in contraction position additionally requires NOT being in quote mode.
Declared only for comparison with `splitTextAux`. -/
def splitTextSpecC5Aux (cut : List Char → List (List Char)) :
    List Char → List Char → Bool → List (List Char) → List (List Char)
  | [], buf, _, words =>
    if buf.isEmpty then words else words ++ processSegment cut buf
  | c :: cs, buf, inQ, words =>
    if c = squote ∨ c = dquote then
      if c = squote ∧ buf.isEmpty = false ∧ nextAlpha cs ∧ inQ = false then
        splitTextSpecC5Aux cut cs (buf ++ [c]) inQ words
      else
        splitTextSpecC5Aux cut cs [] (!inQ)
          (if buf.isEmpty then words else words ++ processSegment cut buf)
    else if rustIsWhitespace c ∧ inQ = false then
      splitTextSpecC5Aux cut cs [] inQ
        (if buf.isEmpty then words else words ++ processSegment cut buf)
    else
      splitTextSpecC5Aux cut cs (buf ++ [c]) inQ words

/-- `split_text` as claim C5's wording would have it. -/
def splitTextSpecC5 (cut : List Char → List (List Char)) (text : List Char) :
    List (List Char) :=
  splitTextSpecC5Aux cut text [] false []

/-- A token free of both quote characters. -/
def noQuote (t : List Char) : Prop := squote ∉ t ∧ dquote ∉ t

/-- The first character of `r` (if any) does not extend a preceding word run
of `splitWordBounds`. -/
def headNoExt : List Char → Bool
  | [] => true
  | d :: _ => !wordChar d && !(d == squote)

/-- A nonempty token made only of word characters. -/
def isRun (t : List Char) : Bool := !t.isEmpty && t.all wordChar

/-- A boundary unit that the hyphen-fusion rule can consume: a word run, or a
single character that is neither whitespace nor a word character. -/
def isAtom (t : List Char) : Bool :=
  isRun t ||
    (match t with
     | [d] => !rustIsWhitespace d && !wordChar d
     | _ => false)

/-- A suffix that the merge loop can attach to an existing token: one of the
fixed punctuation marks, or a hyphen followed by a consumable unit. -/
def isApp (a : List Char) : Bool :=
  punctTok a ||
    (match a with
     | c :: u => c == hyph && isAtom u
     | [] => false)

/-- The boundary units that an attached suffix re-tokenizes into. -/
def atomsOf (a : List Char) : List (List Char) :=
  if punctTok a then [a]
  else
    match a with
    | c :: u => [[c], u]
    | [] => []

/-- The shape of every quote-free token the Latin merge loop can produce:
a word run followed by attachable suffixes. -/
def goodTok (t : List Char) : Prop :=
  ∃ (W : List Char) (apps : List (List Char)),
    t = W ++ apps.flatten ∧ isRun W = true ∧ ∀ a ∈ apps, isApp a = true

/- ### Basic character facts -/

theorem wordChar_not_ws {c : Char} (h : wordChar c = true) :
    rustIsWhitespace c = false := by
  simp only [wordChar, rustIsAlphanumeric, rustIsAlphabetic, Bool.or_eq_true,
    Bool.and_eq_true, decide_eq_true_eq] at h
  simp only [rustIsWhitespace, Bool.or_eq_false_iff, Bool.and_eq_false_iff,
    decide_eq_false_iff_not]
  omega

theorem any_alnum_shape {t : List Char} (h : t.any rustIsAlphanumeric = true) :
    t ≠ [] ∧ t.all rustIsWhitespace = false := by
  rcases List.any_eq_true.1 h with ⟨c, hc, hcal⟩
  refine ⟨by rintro rfl; simp at hc, ?_⟩
  rcases ht : t.all rustIsWhitespace with _ | _
  · rfl
  · exact absurd (List.all_eq_true.1 ht c hc) (by simp [wordChar_not_ws hcal])

theorem punctTok_cases {t : List Char} (h : punctTok t = true) :
    t = ['.'] ∨ t = [','] ∨ t = ['!'] ∨ t = ['?'] ∨
    t = ['。'] ∨ t = ['、'] ∨ t = ['！'] ∨ t = ['？'] := by
  simp only [punctTok, Bool.or_eq_true, beq_iff_eq] at h
  tauto

theorem punct_char_facts {t : List Char} (h : punctTok t = true) :
    ∃ p, t = [p] ∧ wordChar p = false ∧ rustIsWhitespace p = false ∧
      p ≠ squote ∧ p ≠ hyph := by
  rcases punctTok_cases h with rfl | rfl | rfl | rfl | rfl | rfl | rfl | rfl <;>
    exact ⟨_, rfl, by decide, by decide, by decide, by decide⟩

theorem punctTok_length {t : List Char} (h : punctTok t = true) : t.length = 1 := by
  rcases punctTok_cases h with rfl | rfl | rfl | rfl | rfl | rfl | rfl | rfl <;> rfl

theorem isRun_facts {t : List Char} (h : isRun t = true) :
    t ≠ [] ∧ ∀ c ∈ t, wordChar c = true := by
  simp only [isRun, Bool.and_eq_true, Bool.not_eq_true', List.isEmpty_eq_false,
    List.all_eq_true] at h
  exact h

theorem isAtom_not_ws {t : List Char} (h : isAtom t = true) :
    t.all rustIsWhitespace = false := by
  simp only [isAtom, Bool.or_eq_true] at h
  rcases h with h | h
  · rcases isRun_facts h with ⟨hne, hall⟩
    rcases t with _ | ⟨c, t⟩
    · exact absurd rfl hne
    · simp [wordChar_not_ws (hall c (by simp))]
  · rcases t with _ | ⟨c, _ | ⟨d, t⟩⟩ <;> simp_all [Bool.not_eq_true']

theorem isAtom_ne_nil {t : List Char} (h : isAtom t = true) : t ≠ [] := by
  simp only [isAtom, Bool.or_eq_true] at h
  rcases h with h | h
  · exact (isRun_facts h).1
  · rcases t with _ | ⟨c, _ | ⟨d, t⟩⟩ <;> simp_all

/- ### Word-bounds structure -/

theorem wordRun_append : ∀ l : List Char, (wordRun l).1 ++ (wordRun l).2 = l := by
  intro l
  induction l with
  | nil => rfl
  | cons c cs ih =>
    by_cases hw : wordChar c
    · simp [wordRun, hw, ih]
    · by_cases hq : c = squote
      · subst hq
        cases cs with
        | nil => simp [wordRun, hw]
        | cons d ds =>
          by_cases hwd : wordChar d
          · have ih2 : (wordRun ds).1 ++ (wordRun ds).2 = ds := by
              simpa [wordRun, hwd] using ih
            simp [wordRun, hw, hwd, ih2]
          · simp [wordRun, hw, hwd]
      · simp [wordRun, hw, hq]

theorem wordRun_length_le (l : List Char) : (wordRun l).2.length ≤ l.length := by
  calc (wordRun l).2.length ≤ (wordRun l).1.length + (wordRun l).2.length :=
        Nat.le_add_left _ _
    _ = l.length := by rw [← List.length_append, wordRun_append]

theorem wordRun_chars :
    ∀ l : List Char, ∀ c ∈ (wordRun l).1, wordChar c = true ∨ c = squote := by
  intro l
  induction l with
  | nil => simp [wordRun]
  | cons c cs ih =>
    by_cases hw : wordChar c
    · simp only [wordRun, hw, if_pos]
      intro x hx
      rcases List.mem_cons.1 hx with rfl | hx
      · exact Or.inl hw
      · exact ih x hx
    · by_cases hq : c = squote
      · subst hq
        cases cs with
        | nil => simp [wordRun, hw]
        | cons d ds =>
          by_cases hwd : wordChar d
          · have ih2 : ∀ c ∈ (wordRun ds).1, wordChar c = true ∨ c = squote := by
              intro x hx
              exact ih x (by simp [wordRun, hwd, List.mem_cons, hx])
            intro x hx
            have hx2 : x ∈ squote :: d :: (wordRun ds).1 := by
              simpa [wordRun, hw, hwd] using hx
            rcases List.mem_cons.1 hx2 with rfl | hx3
            · exact Or.inr rfl
            rcases List.mem_cons.1 hx3 with rfl | hx4
            · exact Or.inl hwd
            · exact ih2 x hx4
          · simp [wordRun, hw, hwd]
      · simp [wordRun, hw, hq]

theorem dropWhile_length_le (p : Char → Bool) (l : List Char) :
    (l.dropWhile p).length ≤ l.length := by
  conv_rhs => rw [← List.takeWhile_append_dropWhile p l]
  rw [List.length_append]
  exact Nat.le_add_left _ _

theorem swbF_congr :
    ∀ n m : Nat, ∀ l : List Char, l.length ≤ n → l.length ≤ m →
      swbF n l = swbF m l := by
  intro n
  induction n with
  | zero =>
    intro m l h1 _
    have : l = [] := List.length_eq_zero.1 (Nat.le_zero.1 h1)
    subst this
    cases m <;> rfl
  | succ n ih =>
    intro m l h1 h2
    cases l with
    | nil => cases m <;> rfl
    | cons c cs =>
      cases m with
      | zero => simp at h2
      | succ m =>
        have hcs1 : cs.length ≤ n := by simpa using h1
        have hcs2 : cs.length ≤ m := by simpa using h2
        simp only [swbF]
        by_cases hw : wordChar c
        · simp only [hw, if_pos]
          exact congrArg _ (ih m _ (le_trans (wordRun_length_le cs) hcs1)
            (le_trans (wordRun_length_le cs) hcs2))
        · by_cases hws : rustIsWhitespace c
          · simp only [hw, hws, if_neg, if_pos, Bool.false_eq_true, if_false]
            exact congrArg _ (ih m _ (le_trans (dropWhile_length_le _ cs) hcs1)
              (le_trans (dropWhile_length_le _ cs) hcs2))
          · simp only [hw, hws, Bool.false_eq_true, if_false]
            exact congrArg _ (ih m _ hcs1 hcs2)

theorem swb_nil : splitWordBounds [] = [] := rfl

theorem swb_cons (c : Char) (cs : List Char) :
    splitWordBounds (c :: cs) =
      if wordChar c then
        (c :: (wordRun cs).1) :: splitWordBounds (wordRun cs).2
      else if rustIsWhitespace c then
        (c :: cs.takeWhile rustIsWhitespace) ::
          splitWordBounds (cs.dropWhile rustIsWhitespace)
      else
        [c] :: splitWordBounds cs := by
  show swbF (cs.length + 1) (c :: cs) = _
  simp only [swbF]
  by_cases hw : wordChar c
  · simp only [hw, if_pos]
    exact congrArg _ (swbF_congr cs.length _ _ (wordRun_length_le cs) le_rfl)
  · by_cases hws : rustIsWhitespace c
    · simp only [hw, hws, Bool.false_eq_true, if_false, if_pos]
      exact congrArg _ (swbF_congr cs.length _ _ (dropWhile_length_le _ cs) le_rfl)
    · simp only [hw, hws, Bool.false_eq_true, if_false]
      rfl

theorem swb_single (c : Char) (r : List Char) (hw : wordChar c = false)
    (hs : rustIsWhitespace c = false) :
    splitWordBounds (c :: r) = [c] :: splitWordBounds r := by
  rw [swb_cons]
  simp [hw, hs]

theorem wordRun_full :
    ∀ W r : List Char, (∀ c ∈ W, wordChar c = true) → headNoExt r = true →
      wordRun (W ++ r) = (W, r) := by
  intro W
  induction W with
  | nil =>
    intro r _ hr
    cases r with
    | nil => rfl
    | cons d ds =>
      have hd : wordChar d = false ∧ (d == squote) = false := by
        simpa [headNoExt, Bool.and_eq_true, Bool.not_eq_true'] using hr
      have hdq : d ≠ squote := by simpa using hd.2
      simp [wordRun, hd.1, hdq]
  | cons e W ih =>
    intro r hW hr
    have he : wordChar e = true := hW e (List.mem_cons_self _ _)
    simp only [List.cons_append, wordRun, he, if_pos, List.append_eq]
    rw [ih r (fun c hc => hW c (List.mem_cons_of_mem _ hc)) hr]

theorem swb_run (W r : List Char) (hne : W ≠ [])
    (hW : ∀ c ∈ W, wordChar c = true) (hr : headNoExt r = true) :
    splitWordBounds (W ++ r) = W :: splitWordBounds r := by
  cases W with
  | nil => exact absurd rfl hne
  | cons c W =>
    rw [List.cons_append, swb_cons, wordRun_full W r
      (fun x hx => hW x (List.mem_cons_of_mem _ hx)) hr]
    simp [hW c (List.mem_cons_self _ _)]

theorem swb_chars_fuel :
    ∀ n : Nat, ∀ l : List Char, l.length ≤ n →
      ∀ tok ∈ splitWordBounds l, ∀ c ∈ tok, c ∈ l := by
  intro n
  induction n with
  | zero =>
    intro l h1
    have : l = [] := List.length_eq_zero.1 (Nat.le_zero.1 h1)
    subst this
    simp [swb_nil]
  | succ n ih =>
    intro l h1 tok htok c hc
    cases l with
    | nil => simp [swb_nil] at htok
    | cons a as =>
      have has : as.length ≤ n := by simpa using h1
      rw [swb_cons] at htok
      by_cases hw : wordChar a
      · rw [if_pos hw] at htok
        rcases List.mem_cons.1 htok with rfl | htok
        · rcases List.mem_cons.1 hc with rfl | hc
          · exact List.mem_cons_self _ _
          · refine List.mem_cons_of_mem _ ?_
            rw [← wordRun_append as]
            exact List.mem_append.2 (Or.inl hc)
        · have hlen : (wordRun as).2.length ≤ n :=
            le_trans (wordRun_length_le as) has
          refine List.mem_cons_of_mem _ ?_
          rw [← wordRun_append as]
          exact List.mem_append.2 (Or.inr (ih _ hlen tok htok c hc))
      · rw [if_neg hw] at htok
        by_cases hws : rustIsWhitespace a
        · rw [if_pos hws] at htok
          rcases List.mem_cons.1 htok with rfl | htok
          · rcases List.mem_cons.1 hc with rfl | hc
            · exact List.mem_cons_self _ _
            · refine List.mem_cons_of_mem _ ?_
              rw [← List.takeWhile_append_dropWhile rustIsWhitespace as]
              exact List.mem_append.2 (Or.inl hc)
          · have hlen : (as.dropWhile rustIsWhitespace).length ≤ n :=
              le_trans (dropWhile_length_le _ as) has
            refine List.mem_cons_of_mem _ ?_
            rw [← List.takeWhile_append_dropWhile rustIsWhitespace as]
            exact List.mem_append.2 (Or.inr (ih _ hlen tok htok c hc))
        · rw [if_neg hws] at htok
          rcases List.mem_cons.1 htok with rfl | htok
          · rcases List.mem_cons.1 hc with rfl | h0
            · exact List.mem_cons_self _ _
            · simp at h0
          · exact List.mem_cons_of_mem _ (ih _ has tok htok c hc)

theorem swb_chars {l tok : List Char} (htok : tok ∈ splitWordBounds l) {c : Char}
    (hc : c ∈ tok) : c ∈ l :=
  swb_chars_fuel l.length l le_rfl tok htok c hc

theorem swb_shape_fuel :
    ∀ n : Nat, ∀ l : List Char, l.length ≤ n →
      ∀ tok ∈ splitWordBounds l,
        (tok ≠ [] ∧ ∀ c ∈ tok, wordChar c = true ∨ c = squote) ∨
        (tok ≠ [] ∧ ∀ c ∈ tok, rustIsWhitespace c = true) ∨
        (∃ d, tok = [d]) := by
  intro n
  induction n with
  | zero =>
    intro l h1
    have : l = [] := List.length_eq_zero.1 (Nat.le_zero.1 h1)
    subst this
    simp [swb_nil]
  | succ n ih =>
    intro l h1 tok htok
    cases l with
    | nil => simp [swb_nil] at htok
    | cons a as =>
      have has : as.length ≤ n := by simpa using h1
      rw [swb_cons] at htok
      by_cases hw : wordChar a
      · rw [if_pos hw] at htok
        rcases List.mem_cons.1 htok with rfl | htok
        · refine Or.inl ⟨by simp, ?_⟩
          intro c hc
          rcases List.mem_cons.1 hc with rfl | hc
          · exact Or.inl hw
          · exact wordRun_chars as c hc
        · exact ih _ (le_trans (wordRun_length_le as) has) tok htok
      · rw [if_neg hw] at htok
        by_cases hws : rustIsWhitespace a
        · rw [if_pos hws] at htok
          rcases List.mem_cons.1 htok with rfl | htok
          · refine Or.inr (Or.inl ⟨by simp, ?_⟩)
            intro c hc
            rcases List.mem_cons.1 hc with rfl | hc
            · exact hws
            · exact List.mem_takeWhile_imp hc
          · exact ih _ (le_trans (dropWhile_length_le _ as) has) tok htok
        · rw [if_neg hws] at htok
          rcases List.mem_cons.1 htok with rfl | htok
          · exact Or.inr (Or.inr ⟨a, rfl⟩)
          · exact ih _ has tok htok

theorem swb_shape {l tok : List Char} (htok : tok ∈ splitWordBounds l) :
    (tok ≠ [] ∧ ∀ c ∈ tok, wordChar c = true ∨ c = squote) ∨
    (tok ≠ [] ∧ ∀ c ∈ tok, rustIsWhitespace c = true) ∨
    (∃ d, tok = [d]) :=
  swb_shape_fuel l.length l le_rfl tok htok

/- ### Merge-loop structure -/

theorem concat_of_ne_nil {res : List (List Char)} (h : res ≠ []) :
    ∃ init last, res = init ++ [last] := by
  induction res with
  | nil => exact absurd rfl h
  | cons a as ih =>
    cases as with
    | nil => exact ⟨[], a, rfl⟩
    | cons b bs =>
      rcases ih (by simp) with ⟨init, last, heq⟩
      exact ⟨a :: init, last, by rw [heq]; rfl⟩

theorem pushLast_concat (init : List (List Char)) (last s : List Char) :
    pushLast (init ++ [last]) s = init ++ [last ++ s] := by
  induction init with
  | nil => rfl
  | cons a as ih =>
    cases as with
    | nil => rfl
    | cons b bs =>
      show a :: pushLast ((b :: bs) ++ [last]) s = (a :: b :: bs) ++ [last ++ s]
      rw [ih]
      rfl

theorem popLast_concat (init : List (List Char)) (last : List Char) :
    popLast (init ++ [last]) = some (init, last) := by
  induction init with
  | nil => rfl
  | cons a as ih =>
    cases as with
    | nil => rfl
    | cons b bs =>
      show (popLast ((b :: bs) ++ [last])).map _ = _
      rw [ih]
      rfl

theorem mergeLoop_cons (tok : List Char) (rest res : List (List Char)) :
    mergeLoop (tok :: rest) res =
      if tok.all rustIsWhitespace then
        mergeLoop rest res
      else if punctTok tok && !res.isEmpty then
        mergeLoop rest (pushLast res tok)
      else if tok == [hyph] && !res.isEmpty && nextNonWs rest then
        match rest with
        | next :: rest2 => mergeLoop rest2 (pushLast res (hyph :: next))
        | [] => res
      else if tok.any rustIsAlphanumeric then
        mergeLoop rest (res ++ [tok])
      else
        mergeLoop rest res := by
  cases rest <;> rfl

/-- Master invariant of the merge loop: a property `P` of produced tokens,
closed under punctuation reattachment, hyphen fusion and plain pushes, holds
of every output token. -/
theorem merge_inv (P : List Char → Prop) (toksP : List Char → Prop)
    (hpunct : ∀ t tok, P t → toksP tok → punctTok tok = true → P (t ++ tok))
    (hhyph : ∀ t next, P t → toksP next → next.all rustIsWhitespace = false →
      P (t ++ hyph :: next))
    (hpush : ∀ tok, toksP tok → tok.all rustIsWhitespace = false →
      tok.any rustIsAlphanumeric = true → P tok) :
    ∀ n : Nat, ∀ toks : List (List Char), toks.length ≤ n →
      (∀ tk ∈ toks, toksP tk) →
      ∀ res : List (List Char), (∀ r ∈ res, P r) →
      ∀ t ∈ mergeLoop toks res, P t := by
  intro n
  induction n with
  | zero =>
    intro toks h1 _ res hres t ht
    have : toks = [] := List.length_eq_zero.1 (Nat.le_zero.1 h1)
    subst this
    exact hres t ht
  | succ n ih =>
    intro toks h1 htoks res hres t ht
    cases toks with
    | nil => exact hres t ht
    | cons tok rest =>
      have hrest : rest.length ≤ n := by simpa using h1
      have htokP : toksP tok := htoks tok (List.mem_cons_self _ _)
      have hrestP : ∀ tk ∈ rest, toksP tk :=
        fun tk htk => htoks tk (List.mem_cons_of_mem _ htk)
      rw [mergeLoop_cons] at ht
      split_ifs at ht with hws hp hh ha
      · exact ih rest hrest hrestP res hres t ht
      · rw [Bool.and_eq_true] at hp
        obtain ⟨hp1, hp2⟩ := hp
        rw [Bool.not_eq_true'] at hp2
        have hresne : res ≠ [] := List.isEmpty_eq_false.1 hp2
        rcases concat_of_ne_nil hresne with ⟨init, last, rfl⟩
        rw [pushLast_concat] at ht
        refine ih rest hrest hrestP _ ?_ t ht
        intro r hr
        rcases List.mem_append.1 hr with hr | hr
        · exact hres r (List.mem_append.2 (Or.inl hr))
        · rcases List.mem_singleton.1 hr with rfl
          exact hpunct last tok (hres last (by simp)) htokP hp1
      · rw [Bool.and_eq_true, Bool.and_eq_true] at hh
        obtain ⟨⟨hh1, hh2⟩, hh3⟩ := hh
        rw [Bool.not_eq_true'] at hh2
        have hresne : res ≠ [] := List.isEmpty_eq_false.1 hh2
        cases rest with
        | nil => simp [nextNonWs] at hh3
        | cons next rest2 =>
          replace ht : t ∈ mergeLoop rest2 (pushLast res (hyph :: next)) := ht
          have hnext : next.all rustIsWhitespace = false := by
            simpa [nextNonWs, Bool.not_eq_true'] using hh3
          have hrest2 : rest2.length ≤ n := by
            simp only [List.length_cons] at h1
            omega
          rcases concat_of_ne_nil hresne with ⟨init, last, rfl⟩
          rw [pushLast_concat] at ht
          refine ih rest2 hrest2
            (fun tk htk => hrestP tk (List.mem_cons_of_mem _ htk)) _ ?_ t ht
          intro r hr
          rcases List.mem_append.1 hr with hr | hr
          · exact hres r (List.mem_append.2 (Or.inl hr))
          · rcases List.mem_singleton.1 hr with rfl
            exact hhyph last next (hres last (by simp))
              (hrestP next (List.mem_cons_self _ _)) hnext
      · refine ih rest hrest hrestP _ ?_ t ht
        intro r hr
        rcases List.mem_append.1 hr with hr | hr
        · exact hres r hr
        · rcases List.mem_singleton.1 hr with rfl
          have hws2 : r.all rustIsWhitespace = false := by
            rcases h : r.all rustIsWhitespace with _ | _
            · rfl
            · exact absurd h hws
          exact hpush r htokP hws2 ha
      · exact ih rest hrest hrestP res hres t ht

/- ### Scanner structure -/

theorem processSegment_nil (cut : List Char → List (List Char)) :
    processSegment cut [] = [] := rfl

theorem processSegment_latin {cut : List Char → List (List Char)}
    {seg : List Char} (h : seg.any isCJKchar = false) :
    processSegment cut seg = mergeLoop (splitWordBounds seg) [] := by
  simp [processSegment, h]

theorem processSegment_cjk {cut : List Char → List (List Char)}
    {seg : List Char} (h : seg.any isCJKchar = true) :
    processSegment cut seg = (cut seg).filter (fun u => !(u.all rustIsWhitespace)) := by
  simp [processSegment, h]

theorem splitTextAux_eq (cut : List Char → List (List Char)) :
    ∀ (cs buf : List Char) (inQ : Bool) (words : List (List Char)),
      splitTextAux cut cs buf inQ words =
        words ++ (scanLoop cs buf inQ).flatMap (processSegment cut) := by
  intro cs
  induction cs with
  | nil =>
    intro buf inQ words
    by_cases hb : buf.isEmpty <;> simp [splitTextAux, scanLoop, hb]
  | cons c cs ih =>
    intro buf inQ words
    simp only [splitTextAux, scanLoop]
    split_ifs with h1 h2 h3 h4 h5 <;>
      simp [ih, List.flatMap_append, List.append_assoc]

theorem splitText_eq_flatMap (cut : List Char → List (List Char))
    (text : List Char) :
    splitText cut text = (scanSegments text).flatMap (processSegment cut) := by
  simpa [splitText, scanSegments] using splitTextAux_eq cut text [] false []

theorem splitText_mem {cut : List Char → List (List Char)} {text t : List Char} :
    t ∈ splitText cut text ↔
      ∃ seg ∈ scanSegments text, t ∈ processSegment cut seg := by
  rw [splitText_eq_flatMap]
  exact List.mem_flatMap

theorem scan_no_dquote :
    ∀ (cs buf : List Char) (inQ : Bool), dquote ∉ buf →
      ∀ seg ∈ scanLoop cs buf inQ, dquote ∉ seg := by
  intro cs
  induction cs with
  | nil =>
    intro buf inQ hb seg hseg
    simp only [scanLoop] at hseg
    split_ifs at hseg with h
    · simp at hseg
    · rcases List.mem_singleton.1 hseg with rfl
      exact hb
  | cons c cs ih =>
    intro buf inQ hb seg hseg
    simp only [scanLoop] at hseg
    split_ifs at hseg with h1 h2 h3 h4 h5
    · obtain ⟨hc, _, _⟩ := h2
      subst hc
      refine ih (buf ++ [squote]) inQ ?_ seg hseg
      intro hmem
      rcases List.mem_append.1 hmem with hm | hm
      · exact hb hm
      · rcases List.mem_singleton.1 hm with h
        exact absurd h (by decide)
    · exact ih [] (!inQ) (by simp) seg (by simpa using hseg)
    · rcases List.mem_append.1 hseg with hm | hm
      · rcases List.mem_singleton.1 hm with rfl
        exact hb
      · exact ih [] (!inQ) (by simp) seg hm
    · exact ih [] inQ (by simp) seg (by simpa using hseg)
    · rcases List.mem_append.1 hseg with hm | hm
      · rcases List.mem_singleton.1 hm with rfl
        exact hb
      · exact ih [] inQ (by simp) seg hm
    · refine ih (buf ++ [c]) inQ ?_ seg hseg
      intro hmem
      rcases List.mem_append.1 hmem with hm | hm
      · exact hb hm
      · rcases List.mem_singleton.1 hm with h
        exact h1 (Or.inr h.symm)

theorem scan_flatten_sublist :
    ∀ (cs buf : List Char) (inQ : Bool),
      (scanLoop cs buf inQ).flatten.Sublist (buf ++ cs) := by
  intro cs
  induction cs with
  | nil =>
    intro buf inQ
    simp only [scanLoop]
    split_ifs with h
    · simp
    · simp [List.flatten]
  | cons c cs ih =>
    intro buf inQ
    simp only [scanLoop]
    split_ifs with h1 h2 h3 h4 h5
    · obtain ⟨hc, _, _⟩ := h2
      subst hc
      simpa [List.append_assoc] using ih (buf ++ [squote]) inQ
    · have hsub : (scanLoop cs [] (!inQ)).flatten.Sublist cs := by
        simpa using ih [] (!inQ)
      have hb : buf = [] := List.isEmpty_iff.1 h3
      subst hb
      simpa using hsub.trans (List.sublist_cons_self c cs)
    · rw [List.flatten_append]
      have hsub : (scanLoop cs [] (!inQ)).flatten.Sublist cs := by
        simpa using ih [] (!inQ)
      have h := (hsub.trans (List.sublist_cons_self c cs)).append_left buf
      simpa [List.flatten] using h
    · have hsub : (scanLoop cs [] inQ).flatten.Sublist cs := by
        simpa using ih [] inQ
      have hb : buf = [] := List.isEmpty_iff.1 h5
      subst hb
      simpa using hsub.trans (List.sublist_cons_self c cs)
    · rw [List.flatten_append]
      have hsub : (scanLoop cs [] inQ).flatten.Sublist cs := by
        simpa using ih [] inQ
      have h := (hsub.trans (List.sublist_cons_self c cs)).append_left buf
      simpa [List.flatten] using h
    · simpa [List.append_assoc] using ih (buf ++ [c]) inQ

theorem scan_plain :
    ∀ (t buf : List Char),
      (∀ c ∈ t, c ≠ squote ∧ c ≠ dquote ∧ rustIsWhitespace c = false) →
      scanLoop t buf false = if (buf ++ t).isEmpty then [] else [buf ++ t] := by
  intro t
  induction t with
  | nil => intro buf _; simp [scanLoop]
  | cons c cs ih =>
    intro buf h
    obtain ⟨hq1, hq2, hw⟩ := h c (List.mem_cons_self _ _)
    have hA : ¬(c = squote ∨ c = dquote) := by tauto
    simp only [scanLoop]
    rw [if_neg hA, if_neg (by simp [hw]),
      ih (buf ++ [c]) (fun x hx => h x (List.mem_cons_of_mem _ hx))]
    simp [List.append_assoc]

theorem scanSegments_single {t : List Char} (hne : t ≠ [])
    (h : ∀ c ∈ t, c ≠ squote ∧ c ≠ dquote ∧ rustIsWhitespace c = false) :
    scanSegments t = [t] := by
  rw [scanSegments, scan_plain t [] h]
  simp [List.isEmpty_iff, hne]

/- ### Re-tokenization of produced tokens -/

theorem noQuote_append {a b : List Char} :
    noQuote (a ++ b) ↔ noQuote a ∧ noQuote b := by
  simp only [noQuote, List.mem_append, not_or]
  tauto

theorem noQuote_cons {c : Char} {b : List Char} :
    noQuote (c :: b) ↔ (squote ≠ c ∧ dquote ≠ c) ∧ noQuote b := by
  simp only [noQuote, List.mem_cons, not_or]
  tauto

theorem apps_headNoExt {apps : List (List Char)}
    (happs : ∀ a ∈ apps, isApp a = true) : headNoExt apps.flatten = true := by
  cases apps with
  | nil => rfl
  | cons a rest =>
    have ha := happs a (List.mem_cons_self _ _)
    simp only [isApp, Bool.or_eq_true] at ha
    rcases ha with hp | hm
    · rcases punct_char_facts hp with ⟨p, rfl, hpw, _, hpsq, _⟩
      simp [List.flatten_cons, headNoExt, hpw, hpsq]
    · cases a with
      | nil => simp at hm
      | cons c u =>
        replace hm : (c == hyph && isAtom u) = true := hm
        rw [Bool.and_eq_true] at hm
        have hc : c = hyph := by simpa using hm.1
        subst hc
        simp only [List.flatten_cons, List.cons_append]
        simp [headNoExt]
        decide

theorem swb_apps :
    ∀ apps : List (List Char), (∀ a ∈ apps, isApp a = true) →
      splitWordBounds apps.flatten = (apps.map atomsOf).flatten := by
  intro apps
  induction apps with
  | nil => intro _; simp [swb_nil]
  | cons a rest ih =>
    intro happs
    have ha := happs a (List.mem_cons_self _ _)
    have hrest : ∀ x ∈ rest, isApp x = true :=
      fun x hx => happs x (List.mem_cons_of_mem _ hx)
    have hnext : headNoExt rest.flatten = true := apps_headNoExt hrest
    simp only [List.flatten_cons, List.map_cons]
    have ha2 := ha
    simp only [isApp, Bool.or_eq_true] at ha2
    rcases ha2 with hp | hm
    · rcases punct_char_facts hp with ⟨p, rfl, hpw, hpws, _, _⟩
      rw [show ([p] : List Char) ++ rest.flatten = p :: rest.flatten from rfl,
        swb_single p rest.flatten hpw hpws, ih hrest]
      simp [atomsOf, hp]
    · cases a with
      | nil => simp at hm
      | cons c u =>
        replace hm : (c == hyph && isAtom u) = true := hm
        rw [Bool.and_eq_true] at hm
        obtain ⟨hc0, hu⟩ := hm
        have hc : c = hyph := by simpa using hc0
        subst hc
        rw [show (hyph :: u) ++ rest.flatten = hyph :: (u ++ rest.flatten) from rfl,
          swb_single hyph _ (by decide) (by decide)]
        have hsplit : splitWordBounds (u ++ rest.flatten) =
            u :: splitWordBounds rest.flatten := by
          have hu2 := hu
          simp only [isAtom, Bool.or_eq_true] at hu2
          rcases hu2 with hrun | hsingle
          · rcases isRun_facts hrun with ⟨hune, hall⟩
            exact swb_run u rest.flatten hune (fun c hc => hall c hc) hnext
          · cases u with
            | nil => simp at hsingle
            | cons d ds =>
              cases ds with
              | nil =>
                replace hsingle : (!rustIsWhitespace d && !wordChar d) = true := hsingle
                rw [Bool.and_eq_true] at hsingle
                obtain ⟨hd1, hd2⟩ := hsingle
                rw [Bool.not_eq_true'] at hd1
                rw [Bool.not_eq_true'] at hd2
                exact swb_single d _ hd2 hd1
              | cons e es => simp at hsingle
        rw [hsplit, ih hrest]
        have hpf : punctTok (hyph :: u) = false := by
          rcases hpt : punctTok (hyph :: u) with _ | _
          · rfl
          · have hlen := punctTok_length hpt
            have hune : u ≠ [] := isAtom_ne_nil hu
            cases u with
            | nil => exact absurd rfl hune
            | cons x xs => simp at hlen
        simp [atomsOf, hpf]

theorem mergeLoop_punct_step {p : Char} {T R : List (List Char)}
    (hp : punctTok [p] = true) (hws : rustIsWhitespace p = false) (hR : R ≠ []) :
    mergeLoop ([p] :: T) R = mergeLoop T (pushLast R [p]) := by
  rw [mergeLoop_cons]
  rw [if_neg (by simp [hws]), if_pos (by simp [hp, List.isEmpty_iff, hR])]

theorem mergeLoop_hyph_step {u : List Char} {T R : List (List Char)}
    (hu : u.all rustIsWhitespace = false) (hR : R ≠ []) :
    mergeLoop ([hyph] :: u :: T) R = mergeLoop T (pushLast R (hyph :: u)) := by
  have hpf : punctTok [hyph] = false := by decide
  rw [mergeLoop_cons]
  rw [if_neg (by decide), if_neg (by simp [hpf]),
    if_pos (by simp [nextNonWs, hu, List.isEmpty_iff, hR])]

theorem mergeLoop_push_step {W : List Char} {T : List (List Char)}
    (hany : W.any rustIsAlphanumeric = true)
    (hws : W.all rustIsWhitespace = false) :
    mergeLoop (W :: T) [] = mergeLoop T [W] := by
  rw [mergeLoop_cons]
  rw [if_neg (by simp [hws]), if_neg (by simp), if_neg (by simp), if_pos hany]
  rfl

theorem merge_replay_apps :
    ∀ apps : List (List Char), (∀ a ∈ apps, isApp a = true) →
      ∀ (init : List (List Char)) (last : List Char),
        mergeLoop (apps.map atomsOf).flatten (init ++ [last]) =
          init ++ [last ++ apps.flatten] := by
  intro apps
  induction apps with
  | nil => intro _ init last; simp [mergeLoop]
  | cons a rest ih =>
    intro happs init last
    have ha := happs a (List.mem_cons_self _ _)
    have hrest : ∀ x ∈ rest, isApp x = true :=
      fun x hx => happs x (List.mem_cons_of_mem _ hx)
    have ha2 := ha
    simp only [isApp, Bool.or_eq_true] at ha2
    rcases ha2 with hp | hm
    · rcases punct_char_facts hp with ⟨p, rfl, _, hpws, _, _⟩
      have hat : atomsOf [p] = [[p]] := by simp [atomsOf, hp]
      simp only [List.map_cons, List.flatten_cons, hat]
      rw [show ([[p]] : List (List Char)) ++ (rest.map atomsOf).flatten =
        [p] :: (rest.map atomsOf).flatten from rfl]
      rw [mergeLoop_punct_step hp hpws (by simp), pushLast_concat, ih hrest]
      simp [List.append_assoc]
    · cases a with
      | nil => simp at hm
      | cons c u =>
        replace hm : (c == hyph && isAtom u) = true := hm
        rw [Bool.and_eq_true] at hm
        obtain ⟨hc0, hu⟩ := hm
        have hc : c = hyph := by simpa using hc0
        subst hc
        have hpf : punctTok (hyph :: u) = false := by
          rcases hpt : punctTok (hyph :: u) with _ | _
          · rfl
          · have hlen := punctTok_length hpt
            have hune : u ≠ [] := isAtom_ne_nil hu
            cases u with
            | nil => exact absurd rfl hune
            | cons x xs => simp at hlen
        have hat : atomsOf (hyph :: u) = [[hyph], u] := by simp [atomsOf, hpf]
        simp only [List.map_cons, List.flatten_cons, hat]
        rw [show ([[hyph], u] : List (List Char)) ++ (rest.map atomsOf).flatten =
          [hyph] :: u :: (rest.map atomsOf).flatten from rfl]
        rw [mergeLoop_hyph_step (isAtom_not_ws hu) (by simp), pushLast_concat,
          ih hrest]
        simp [List.append_assoc]

theorem run_any_alnum {W : List Char} (hne : W ≠ [])
    (hall : ∀ c ∈ W, wordChar c = true) : W.any rustIsAlphanumeric = true := by
  cases W with
  | nil => exact absurd rfl hne
  | cons a as =>
    refine List.any_eq_true.2 ⟨a, List.mem_cons_self _ _, ?_⟩
    have := hall a (List.mem_cons_self _ _)
    simpa [wordChar] using this

theorem run_all_ws_false {W : List Char} (hne : W ≠ [])
    (hall : ∀ c ∈ W, wordChar c = true) : W.all rustIsWhitespace = false := by
  cases W with
  | nil => exact absurd rfl hne
  | cons a as =>
    rcases h : (a :: as).all rustIsWhitespace with _ | _
    · rfl
    · have hws := List.all_eq_true.1 h a (List.mem_cons_self _ _)
      have := wordChar_not_ws (hall a (List.mem_cons_self _ _))
      rw [this] at hws
      exact absurd hws (by simp)

theorem merge_replay {t : List Char} (h : goodTok t) :
    mergeLoop (splitWordBounds t) [] = [t] := by
  obtain ⟨W, apps, rfl, hW, happs⟩ := h
  rcases isRun_facts hW with ⟨hWne, hWall⟩
  rw [swb_run W apps.flatten hWne hWall (apps_headNoExt happs), swb_apps apps happs,
    mergeLoop_push_step (run_any_alnum hWne hWall) (run_all_ws_false hWne hWall)]
  have := merge_replay_apps apps happs [] W
  simpa using this

theorem shape_atom {next : List Char}
    (hshape : (next ≠ [] ∧ ∀ c ∈ next, wordChar c = true ∨ c = squote) ∨
      (next ≠ [] ∧ ∀ c ∈ next, rustIsWhitespace c = true) ∨ (∃ d, next = [d]))
    (hnq : squote ∉ next) (hnws : next.all rustIsWhitespace = false) :
    isAtom next = true := by
  rcases hshape with ⟨hne, hall⟩ | ⟨hne, hall⟩ | ⟨d, rfl⟩
  · have hword : ∀ c ∈ next, wordChar c = true := by
      intro c hc
      rcases hall c hc with h | h
      · exact h
      · exact absurd (h ▸ hc) hnq
    have h1 : next.isEmpty = false := List.isEmpty_eq_false.2 hne
    have h2 : next.all wordChar = true := List.all_eq_true.2 hword
    simp [isAtom, isRun, h1, h2]
  · rw [List.all_eq_true.2 hall] at hnws
    exact absurd hnws (by simp)
  · by_cases hw : wordChar d = true
    · simp [isAtom, isRun, hw]
    · have hw2 : wordChar d = false := by
        rcases h : wordChar d with _ | _
        · rfl
        · exact absurd h hw
      have hws : rustIsWhitespace d = false := by simpa using hnws
      simp [isAtom, isRun, hws, hw2]

theorem goodTok_append_app {t a : List Char} (hg : goodTok t)
    (ha : isApp a = true) : goodTok (t ++ a) := by
  obtain ⟨W, apps, rfl, hW, happs⟩ := hg
  refine ⟨W, apps ++ [a], by simp [List.flatten_append, List.append_assoc], hW, ?_⟩
  intro x hx
  rcases List.mem_append.1 hx with hx | hx
  · exact happs x hx
  · rcases List.mem_singleton.1 hx with rfl
    exact ha

theorem merge_goodTok {seg t : List Char}
    (ht : t ∈ mergeLoop (splitWordBounds seg) []) (hq : noQuote t) : goodTok t := by
  refine merge_inv (fun x => noQuote x → goodTok x)
    (fun tk => (tk ≠ [] ∧ ∀ c ∈ tk, wordChar c = true ∨ c = squote) ∨
      (tk ≠ [] ∧ ∀ c ∈ tk, rustIsWhitespace c = true) ∨ (∃ d, tk = [d]))
    ?_ ?_ ?_ (splitWordBounds seg).length (splitWordBounds seg) le_rfl
    (fun tk htk => swb_shape htk) [] (by simp) t ht hq
  · intro x tok hP hshape hp hq2
    rcases noQuote_append.1 hq2 with ⟨hqx, _⟩
    exact goodTok_append_app (hP hqx) (by simp [isApp, hp])
  · intro x next hP hshape hnws2 hq2
    rcases noQuote_append.1 hq2 with ⟨hqx, hqa⟩
    have hqnext : squote ∉ next := fun hmem => hqa.1 (List.mem_cons_of_mem _ hmem)
    have hatom : isAtom next = true := shape_atom hshape hqnext hnws2
    refine goodTok_append_app (hP hqx) ?_
    simp [isApp, hatom]
  · intro tok hshape hws hany hq2
    have hne := (any_alnum_shape hany).1
    have hall : ∀ c ∈ tok, wordChar c = true := by
      rcases hshape with ⟨_, hall⟩ | ⟨_, hall⟩ | ⟨d, rfl⟩
      · intro c hc
        rcases hall c hc with h | h
        · exact h
        · exact absurd (h ▸ hc) hq2.1
      · exfalso
        rw [List.all_eq_true.2 hall] at hws
        exact absurd hws (by simp)
      · intro c hc
        rcases List.mem_singleton.1 hc with rfl
        rcases List.any_eq_true.1 hany with ⟨x, hx, hxa⟩
        rcases List.mem_singleton.1 hx with rfl
        simpa [wordChar] using hxa
    have h1 : tok.isEmpty = false := List.isEmpty_eq_false.2 hne
    exact ⟨tok, [], by simp, by simp [isRun, h1, List.all_eq_true.2 hall], by simp⟩

theorem merge_token_chars {seg t : List Char}
    (ht : t ∈ mergeLoop (splitWordBounds seg) []) :
    ∀ c ∈ t, c ∈ seg ∨ c = hyph := by
  refine merge_inv (fun x => ∀ c ∈ x, c ∈ seg ∨ c = hyph)
    (fun tk => ∀ c ∈ tk, c ∈ seg) ?_ ?_ ?_
    (splitWordBounds seg).length (splitWordBounds seg) le_rfl
    (fun tk htk c hc => swb_chars htk hc) [] (by simp) t ht
  · intro x tok hx htok _ c hc
    rcases List.mem_append.1 hc with h | h
    · exact hx c h
    · exact Or.inl (htok c h)
  · intro x next hx hnext _ c hc
    rcases List.mem_append.1 hc with h | h
    · exact hx c h
    · rcases List.mem_cons.1 h with rfl | h
      · exact Or.inr rfl
      · exact Or.inl (hnext c h)
  · intro tok htok _ _ c hc
    exact Or.inl (htok c hc)

theorem merge_token_alnum {seg t : List Char}
    (ht : t ∈ mergeLoop (splitWordBounds seg) []) :
    t.any rustIsAlphanumeric = true := by
  refine merge_inv (fun x => x.any rustIsAlphanumeric = true) (fun _ => True)
    ?_ ?_ ?_ (splitWordBounds seg).length (splitWordBounds seg) le_rfl
    (fun _ _ => trivial) [] (by simp) t ht
  · intro x tok hx _ _
    rcases List.any_eq_true.1 hx with ⟨c, hc, hca⟩
    exact List.any_eq_true.2 ⟨c, List.mem_append.2 (Or.inl hc), hca⟩
  · intro x next hx _ _
    rcases List.any_eq_true.1 hx with ⟨c, hc, hca⟩
    exact List.any_eq_true.2 ⟨c, List.mem_append.2 (Or.inl hc), hca⟩
  · intro tok _ _ hany
    exact hany

/- ### The fallible variant never fails -/

theorem popApply_concat (init : List (List Char)) (last s : List Char)
    (k : List (List Char) → Option (List (List Char))) :
    popApply (init ++ [last]) s k = k (init ++ [last ++ s]) := by
  rw [popApply, popLast_concat]

theorem mergeLoopO_cons (tok : List Char) (rest res : List (List Char)) :
    mergeLoopO (tok :: rest) res =
      if tok.all rustIsWhitespace then
        mergeLoopO rest res
      else if punctTok tok && !res.isEmpty then
        popApply res tok (mergeLoopO rest)
      else if tok == [hyph] && !res.isEmpty && nextNonWs rest then
        match rest with
        | next :: rest2 => popApply res (hyph :: next) (mergeLoopO rest2)
        | [] => none
      else if tok.any rustIsAlphanumeric then
        mergeLoopO rest (res ++ [tok])
      else
        mergeLoopO rest res := by
  cases rest <;> rfl

theorem mergeLoopO_eq_fuel :
    ∀ n : Nat, ∀ toks : List (List Char), toks.length ≤ n →
      ∀ res, mergeLoopO toks res = some (mergeLoop toks res) := by
  intro n
  induction n with
  | zero =>
    intro toks h1 res
    have : toks = [] := List.length_eq_zero.1 (Nat.le_zero.1 h1)
    subst this
    rfl
  | succ n ih =>
    intro toks h1 res
    cases toks with
    | nil => rfl
    | cons tok rest =>
      have hrest : rest.length ≤ n := by simpa using h1
      rw [mergeLoopO_cons, mergeLoop_cons]
      split_ifs with h1' h2' h3' h4'
      · exact ih rest hrest res
      · rw [Bool.and_eq_true] at h2'
        obtain ⟨hp1, hp2⟩ := h2'
        rw [Bool.not_eq_true'] at hp2
        have hresne : res ≠ [] := List.isEmpty_eq_false.1 hp2
        rcases concat_of_ne_nil hresne with ⟨init, last, rfl⟩
        rw [popApply_concat, pushLast_concat]
        exact ih rest hrest _
      · rw [Bool.and_eq_true, Bool.and_eq_true] at h3'
        obtain ⟨⟨hh1, hh2⟩, hh3⟩ := h3'
        rw [Bool.not_eq_true'] at hh2
        have hresne : res ≠ [] := List.isEmpty_eq_false.1 hh2
        cases rest with
        | nil => simp [nextNonWs] at hh3
        | cons next rest2 =>
          rcases concat_of_ne_nil hresne with ⟨init, last, rfl⟩
          show popApply (init ++ [last]) (hyph :: next) (mergeLoopO rest2) =
            some (mergeLoop rest2 (pushLast (init ++ [last]) (hyph :: next)))
          rw [popApply_concat, pushLast_concat]
          have hrest2 : rest2.length ≤ n := by
            simp only [List.length_cons] at h1
            omega
          exact ih rest2 hrest2 _
      · exact ih rest hrest _
      · exact ih rest hrest res

theorem mergeLoopO_eq (toks res : List (List Char)) :
    mergeLoopO toks res = some (mergeLoop toks res) :=
  mergeLoopO_eq_fuel toks.length toks le_rfl res

theorem processSegmentO_eq (cut : List Char → List (List Char)) (seg : List Char) :
    processSegmentO cut seg = some (processSegment cut seg) := by
  by_cases h : seg.any isCJKchar = true <;>
    simp [processSegmentO, processSegment, h, mergeLoopO_eq]

theorem splitTextAuxO_eq (cut : List Char → List (List Char)) :
    ∀ (cs buf : List Char) (inQ : Bool) (words : List (List Char)),
      splitTextAuxO cut cs buf inQ words =
        some (splitTextAux cut cs buf inQ words) := by
  intro cs
  induction cs with
  | nil =>
    intro buf inQ words
    by_cases hb : buf.isEmpty <;>
      simp [splitTextAuxO, splitTextAux, hb, processSegmentO_eq]
  | cons c cs ih =>
    intro buf inQ words
    simp only [splitTextAuxO, splitTextAux]
    split_ifs with h1 h2 h3 h4 h5 <;> simp [ih, processSegmentO_eq]

theorem splitTextO_eq (cut : List Char → List (List Char)) (text : List Char) :
    splitTextO cut text = some (splitText cut text) :=
  splitTextAuxO_eq cut text [] false []

/- ### Quoted content -/

theorem splitTextAux_inq_push (cut : List Char → List (List Char)) :
    ∀ (s r buf : List Char) (words : List (List Char)),
      (∀ c ∈ s, c ≠ squote ∧ c ≠ dquote) →
      splitTextAux cut (s ++ r) buf true words =
        splitTextAux cut r (buf ++ s) true words := by
  intro s
  induction s with
  | nil => intro r buf words _; simp
  | cons c cs ih =>
    intro r buf words h
    obtain ⟨h1, h2⟩ := h c (List.mem_cons_self _ _)
    have hA : ¬(c = squote ∨ c = dquote) := by tauto
    rw [List.cons_append]
    simp only [splitTextAux]
    rw [if_neg hA, if_neg (by simp),
      ih r (buf ++ [c]) words (fun x hx => h x (List.mem_cons_of_mem _ hx))]
    simp [List.append_assoc]

theorem splitText_quoted_ctx (cut : List Char → List (List Char))
    (s post buf : List Char) (words : List (List Char))
    (h : ∀ c ∈ s, c ≠ squote ∧ c ≠ dquote) :
    splitTextAux cut (dquote :: (s ++ dquote :: post)) buf false words =
      splitTextAux cut post [] false
        ((if buf.isEmpty then words else words ++ processSegment cut buf) ++
          processSegment cut s) := by
  have hdq : dquote ≠ squote := by decide
  simp only [splitTextAux]
  rw [if_pos (Or.inr trivial), if_neg (by simp [hdq])]
  show splitTextAux cut (s ++ dquote :: post) [] true
      (if buf.isEmpty then words else words ++ processSegment cut buf) = _
  rw [splitTextAux_inq_push cut s (dquote :: post) [] _ h]
  simp only [List.nil_append, splitTextAux]
  rw [if_pos (Or.inr trivial), if_neg (by simp [hdq])]
  show splitTextAux cut post [] false
      (if s.isEmpty then
        (if buf.isEmpty then words else words ++ processSegment cut buf)
       else
        (if buf.isEmpty then words else words ++ processSegment cut buf) ++
          processSegment cut s) = _
  have harg :
      (if s.isEmpty then
        (if buf.isEmpty then words else words ++ processSegment cut buf)
       else
        (if buf.isEmpty then words else words ++ processSegment cut buf) ++
          processSegment cut s) =
      (if buf.isEmpty then words else words ++ processSegment cut buf) ++
        processSegment cut s := by
    by_cases hs : s.isEmpty
    · have hnil : s = [] := List.isEmpty_iff.1 hs
      subst hnil
      simp [processSegment_nil]
    · simp [hs]
  rw [harg]

theorem output_no_dquote (cut : List Char → List (List Char))
    (hcov : ∀ s u, u ∈ cut s → ∀ c ∈ u, c ∈ s)
    (text t : List Char) (ht : t ∈ splitText cut text) : dquote ∉ t := by
  rcases splitText_mem.1 ht with ⟨seg, hseg, htp⟩
  have hsegq : dquote ∉ seg := scan_no_dquote text [] false (by simp) seg hseg
  by_cases hc : seg.any isCJKchar = true
  · rw [processSegment_cjk hc] at htp
    rcases List.mem_filter.1 htp with ⟨hmem, _⟩
    intro hdq
    exact hsegq (hcov seg t hmem dquote hdq)
  · have hc2 : seg.any isCJKchar = false := by
      rcases h : seg.any isCJKchar with _ | _
      · rfl
      · exact absurd h hc
    rw [processSegment_latin hc2] at htp
    intro hdq
    rcases merge_token_chars htp dquote hdq with hin | heq
    · exact hsegq hin
    · exact absurd heq (by decide)

/- ### Claim theorems -/

/-- C1 (counterexample): the input consisting of the balanced quoted
substring `"hi there"` does not keep that substring (with its delimiters) as
one token: `split_text` strips both quote characters and tokenizes the
content, yielding `["hi", "there"]`. -/
theorem quote_atomicity_cx :
    splitText cutNil ([dquote] ++ ['h','i',' ','t','h','e','r','e'] ++ [dquote]) =
      [['h','i'], ['t','h','e','r','e']] ∧
    ([dquote] ++ ['h','i',' ','t','h','e','r','e'] ++ [dquote]) ∉
      splitText cutNil ([dquote] ++ ['h','i',' ','t','h','e','r','e'] ++ [dquote]) := by
  decide

/-- C1 (amended): wherever the scanner, out of quote mode, meets a balanced
double-quoted substring `"s"` (content `s` free of quote characters) — with
any pending buffer, any words already produced, and any remaining input after
the closing quote, which is how an occurrence inside a larger input presents
itself — it flushes the pending segment, hands `s` as exactly one segment to
`process_segment` (so `s` is protected from whitespace splitting but is
tokenized further), drops both delimiters, and continues after the closing
quote out of quote mode.  Moreover, under the oracle's coverage contract, no
output token of any input contains the double-quote delimiter character. -/
theorem quote_atomicity_amended (cut : List Char → List (List Char))
    (hcov : ∀ s u, u ∈ cut s → ∀ c ∈ u, c ∈ s) :
    (∀ (s post buf : List Char) (words : List (List Char)),
      (∀ c ∈ s, c ≠ squote ∧ c ≠ dquote) →
      splitTextAux cut (dquote :: (s ++ dquote :: post)) buf false words =
        splitTextAux cut post [] false
          ((if buf.isEmpty then words else words ++ processSegment cut buf) ++
            processSegment cut s)) ∧
    (∀ text t, t ∈ splitText cut text → dquote ∉ t) :=
  ⟨fun s post buf words h => splitText_quoted_ctx cut s post buf words h,
    fun text t ht => output_no_dquote cut hcov text t ht⟩

/-- C1 (witness): the amended statement evaluated with the quoted substring
`"hi there"` occurring mid-input (pending buffer `p`, trailing input `x`),
and the delimiter-free-output clause at the token `hi` of `"hi there"`. -/
theorem quote_atomicity_witness :
    splitTextAux cutNil
        (dquote :: ((['h','i',' ','t','h','e','r','e'] : List Char) ++
          dquote :: ['x'])) ['p'] false [] =
      splitTextAux cutNil ['x'] [] false
        ((if (['p'] : List Char).isEmpty then ([] : List (List Char))
          else [] ++ processSegment cutNil ['p']) ++
          processSegment cutNil ['h','i',' ','t','h','e','r','e']) ∧
    dquote ∉ (['h','i'] : List Char) :=
  ⟨(quote_atomicity_amended cutNil (by intro s u h; simp [cutNil] at h)).1
      ['h','i',' ','t','h','e','r','e'] ['x'] ['p'] [] (by decide),
    (quote_atomicity_amended cutNil (by intro s u h; simp [cutNil] at h)).2
      (dquote :: ((['h','i',' ','t','h','e','r','e'] : List Char) ++ [dquote]))
      ['h','i'] (by decide)⟩

/-- C2: `split_text` is total.  The fallible rendering of the engine — in
which the two `unwrap` sites of the hyphen-merge branch may fail — always
returns `some` of the total function's value (the unwraps are unreachable
under their guards), and the empty input yields the empty output. -/
theorem split_text_total (cut : List Char → List (List Char)) :
    (∀ text, splitTextO cut text = some (splitText cut text)) ∧
    splitText cut [] = [] :=
  ⟨fun text => splitTextO_eq cut text, rfl⟩

/-- C3 (counterexample): on the input `Missing "quote here` the engine does
NOT return `["Missing", "\x22quote here"]`: the opening quote character is
consumed by the scanner, never kept in a token. -/
theorem unterminated_quote_cx :
    splitText cutNil
        (['M','i','s','s','i','n','g',' '] ++ [dquote] ++
          ['q','u','o','t','e',' ','h','e','r','e']) ≠
      [['M','i','s','s','i','n','g'],
        [dquote,'q','u','o','t','e',' ','h','e','r','e']] := by
  decide

/-- C3 (amended): on `Missing "quote here` the unterminated quoted remainder
is buffered to end-of-input (its internal space is protected from splitting),
but the quote character is dropped and the remainder is tokenized, giving
`["Missing", "quote", "here"]`. -/
theorem unterminated_quote_amended (cut : List Char → List (List Char)) :
    splitText cut
        (['M','i','s','s','i','n','g',' '] ++ [dquote] ++
          ['q','u','o','t','e',' ','h','e','r','e']) =
      [['M','i','s','s','i','n','g'], ['q','u','o','t','e'], ['h','e','r','e']] :=
  rfl

/-- C4 (counterexample): on the CJK span `中。` (with the oracle returning the
two units `中` and `。`), the punctuation mark `。` stays a standalone output
token and is not fused into the preceding token. -/
theorem cjk_punct_cx :
    splitText cutChars ['中','。'] = [['中'], ['。']] ∧
    ['中','。'] ∉ splitText cutChars ['中','。'] := by
  decide

/-- C4 (amended): the CJK path performs no punctuation classification and no
fusion: every unit returned by the oracle that is not whitespace-only becomes
its own output token unchanged, punctuation marks included. -/
theorem cjk_punct_amended (cut : List Char → List (List Char)) (seg : List Char)
    (hc : seg.any isCJKchar = true) (u : List Char) (hu : u ∈ cut seg)
    (hw : u.all rustIsWhitespace = false) : u ∈ processSegment cut seg := by
  rw [processSegment_cjk hc]
  exact List.mem_filter.2 ⟨hu, by simp [hw]⟩

/-- C4 (witness): the amended statement evaluated on the span `中。` with the
character-level oracle: the unit `。` survives as its own token. -/
theorem cjk_punct_witness :
    (['中','。'] : List Char).any isCJKchar = true ∧
    ['。'] ∈ processSegment cutChars ['中','。'] :=
  ⟨by decide, cjk_punct_amended cutChars ['中','。'] (by decide) ['。']
    (by decide) (by decide)⟩

/-- C5 (counterexample): the code's contraction test does not consult the
quote flag.  On input `'it's` the apostrophe inside `it's` sits in quote mode
with a non-empty buffer and an alphabetic successor: the code appends it
(one token `it's`), while a scanner following the claim's wording (which
additionally requires not being in quote mode) would split to `it`, `s`. -/
theorem contraction_mode_cx :
    splitText cutNil ([squote] ++ ['i','t'] ++ [squote] ++ ['s']) =
      [['i','t',squote,'s']] ∧
    splitTextSpecC5 cutNil ([squote] ++ ['i','t'] ++ [squote] ++ ['s']) =
      [['i','t'],['s']] := by
  decide

/-- C5 (amended): a single quote is appended to the buffer without flipping
quote mode exactly when the buffer is non-empty and the next character is
alphabetic — regardless of quote mode; in every other case it is treated
identically to a double quote. -/
theorem contraction_mode_amended (cut : List Char → List (List Char))
    (cs buf : List Char) (inQ : Bool) (words : List (List Char)) :
    (buf ≠ [] ∧ nextAlpha cs = true →
      splitTextAux cut (squote :: cs) buf inQ words =
        splitTextAux cut cs (buf ++ [squote]) inQ words) ∧
    (¬(buf ≠ [] ∧ nextAlpha cs = true) →
      splitTextAux cut (squote :: cs) buf inQ words =
        splitTextAux cut (dquote :: cs) buf inQ words) := by
  have hsd : squote ≠ dquote := by decide
  have hds : dquote ≠ squote := by decide
  constructor
  · rintro ⟨h1, h2⟩
    have hb : buf.isEmpty = false := List.isEmpty_eq_false.2 h1
    simp [splitTextAux, hb, h2]
  · intro hneg
    by_cases h1 : buf.isEmpty
    · simp [splitTextAux, h1, hds]
    · have hbne : buf ≠ [] := fun hb => h1 (by simp [hb])
      have h2 : nextAlpha cs = false := by
        rcases h : nextAlpha cs with _ | _
        · rfl
        · exact absurd ⟨hbne, h⟩ hneg
      simp [splitTextAux, h1, h2, hds]

/-- C5 (witness): the amended statement's contraction case evaluated inside
quote mode (buffer `x`, next character `a`). -/
theorem contraction_mode_witness :
    splitTextAux cutNil (squote :: ['a']) ['x'] true [] =
      splitTextAux cutNil ['a'] (['x'] ++ [squote]) true [] :=
  (contraction_mode_amended cutNil ['a'] ['x'] true []).1 ⟨by decide, by decide⟩

/-- C6: `Hello, world-test. Done!` segments to
`["Hello,", "world-test.", "Done!"]` — punctuation is reattached to the
preceding word and the hyphenated compound is fused. -/
theorem punctuation_reattach_thm (cut : List Char → List (List Char)) :
    splitText cut
        ['H','e','l','l','o',',',' ','w','o','r','l','d','-','t','e','s','t','.',
          ' ','D','o','n','e','!'] =
      [['H','e','l','l','o',','], ['w','o','r','l','d','-','t','e','s','t','.'],
        ['D','o','n','e','!']] :=
  rfl

/-- C7 (counterexample): concatenating the scanner's segments does not
reconstruct the input: on `a b` the separating space is dropped. -/
theorem span_coverage_cx :
    (scanSegments ['a',' ','b']).flatten ≠ ['a',' ','b'] ∧
    (scanSegments ['a',' ','b']).flatten = ['a','b'] := by
  decide

/-- C7 (amended): the concatenation of the scanner's segments is a
subsequence of the input — no character is invented, duplicated or reordered
— but quote delimiters and unquoted whitespace are dropped, so the
concatenation need not equal the input. -/
theorem span_coverage_amended (text : List Char) :
    (scanSegments text).flatten.Sublist text := by
  simpa [scanSegments] using scan_flatten_sublist text [] false

/-- C8: no token produced by `split_text` is empty or whitespace-only, for
every input and every oracle. -/
theorem no_ws_token_thm (cut : List Char → List (List Char))
    (text t : List Char) (ht : t ∈ splitText cut text) :
    t ≠ [] ∧ t.all rustIsWhitespace = false := by
  rcases splitText_mem.1 ht with ⟨seg, hseg, htp⟩
  by_cases hc : seg.any isCJKchar = true
  · rw [processSegment_cjk hc] at htp
    rcases List.mem_filter.1 htp with ⟨_, hflt⟩
    have hws : t.all rustIsWhitespace = false := by simpa using hflt
    refine ⟨?_, hws⟩
    rintro rfl
    simp at hws
  · have hc2 : seg.any isCJKchar = false := by
      rcases h : seg.any isCJKchar with _ | _
      · rfl
      · exact absurd h hc
    rw [processSegment_latin hc2] at htp
    exact any_alnum_shape (merge_token_alnum htp)

/-- C8 (witness): the statement evaluated on input `ab` and its produced
token `ab`. -/
theorem no_ws_token_witness :
    (['a','b'] : List Char) ≠ [] ∧
    (['a','b'] : List Char).all rustIsWhitespace = false :=
  no_ws_token_thm cutNil ['a','b'] ['a','b'] (by decide)

/-- C9: segmentation is idempotent on produced tokens.  For any oracle whose
emitted units re-segment to themselves (the spec's contract for the external
CJK segmenter), every token `t` produced by `split_text` that contains no
quote character and no whitespace satisfies `split_text t = [t]`. -/
theorem token_idempotent_thm (cut : List Char → List (List Char))
    (hcut : ∀ s u, u ∈ cut s → noQuote u → u.all rustIsWhitespace = false →
      splitText cut u = [u])
    (text t : List Char) (ht : t ∈ splitText cut text) (hq : noQuote t)
    (hw : ∀ c ∈ t, rustIsWhitespace c = false) :
    splitText cut t = [t] := by
  rcases splitText_mem.1 ht with ⟨seg, hseg, htp⟩
  by_cases hc : seg.any isCJKchar = true
  · rw [processSegment_cjk hc] at htp
    rcases List.mem_filter.1 htp with ⟨hmem, hflt⟩
    exact hcut seg t hmem hq (by simpa using hflt)
  · have hc2 : seg.any isCJKchar = false := by
      rcases h : seg.any isCJKchar with _ | _
      · rfl
      · exact absurd h hc
    rw [processSegment_latin hc2] at htp
    obtain ⟨W, apps, heq, hW, happs⟩ := merge_goodTok htp hq
    have hne : t ≠ [] := by
      rw [heq]
      exact List.append_ne_nil_of_left_ne_nil (isRun_facts hW).1 _
    have hscan : scanSegments t = [t] :=
      scanSegments_single hne (fun c hc3 =>
        ⟨fun hcsq => hq.1 (hcsq ▸ hc3), fun hcdq => hq.2 (hcdq ▸ hc3), hw c hc3⟩)
    have hchars := merge_token_chars htp
    have hnc : t.any isCJKchar = false := by
      rcases h : t.any isCJKchar with _ | _
      · rfl
      · exfalso
        rcases List.any_eq_true.1 h with ⟨c, hc3, hcj⟩
        rcases hchars c hc3 with hin | rfl
        · have hx : seg.any isCJKchar = true := List.any_eq_true.2 ⟨c, hin, hcj⟩
          rw [hx] at hc2
          exact absurd hc2 (by simp)
        · exact absurd hcj (by decide)
    rw [splitText_eq_flatMap, hscan]
    simp only [List.flatMap_cons, List.flatMap_nil, List.append_nil]
    rw [processSegment_latin hnc]
    exact merge_replay ⟨W, apps, heq, hW, happs⟩

/-- C9 (witness): the statement evaluated on input `ab` and its produced
token `ab`, with the trivial oracle. -/
theorem token_idempotent_witness :
    (['a','b'] : List Char) ∈ splitText cutNil ['a','b'] ∧
    splitText cutNil ['a','b'] = [['a','b']] :=
  ⟨by decide,
    token_idempotent_thm cutNil
      (by intro s u h _ _; simp [cutNil] at h)
      ['a','b'] ['a','b'] (by decide) ⟨by decide, by decide⟩ (by decide)⟩

/-- C10: no token produced by `split_text` contains the double-quote
character, for any oracle whose units only use characters of its input (the
coverage contract): quote delimiters are consumed by the scanner and never
copied into the output. -/
theorem no_dquote_thm (cut : List Char → List (List Char))
    (hcov : ∀ s u, u ∈ cut s → ∀ c ∈ u, c ∈ s)
    (text t : List Char) (ht : t ∈ splitText cut text) : dquote ∉ t :=
  output_no_dquote cut hcov text t ht

/-- C10 (witness): the statement evaluated on input `a"b` and its produced
token `a`, with the trivial oracle. -/
theorem no_dquote_witness : dquote ∉ (['a'] : List Char) :=
  no_dquote_thm cutNil (by intro s u h; simp [cutNil] at h)
    ['a',dquote,'b'] ['a'] (by decide)
